import Mathlib

/-!
Shallow embedding of `src/data_quality.py` from the healthcare encounter
analytics repository, together with proofs of the quality-check
properties stated in the specification.

The pandas `DataFrame` handled by the module has a fixed schema
(`patient_id`, `facility_id`, `year_month`, `total_encounters`,
`total_cost`, `distinct_diagnosis_count`); a well-formed frame is
embedded as a list of `Row` records.  Numeric cells are embedded as
rationals.  A flagged frame carries one extra string column
`flag_reason`, so it is embedded as a list of `FlaggedRow`.
-/

namespace DataQuality

/-- One row of the analytics table (fixed input schema). -/
structure Row where
  patient_id : String
  facility_id : String
  year_month : String
  total_encounters : ℚ
  total_cost : ℚ
  distinct_diagnosis_count : ℚ
deriving DecidableEq, Repr

/-- A row of a flagged frame: an input row plus the `flag_reason` column. -/
structure FlaggedRow where
  row : Row
  flag_reason : String
deriving DecidableEq, Repr

abbrev Table := List Row

/-- The primary key `(patient_id, facility_id, year_month)` of a row. -/
def rowKey (r : Row) : String × String × String :=
  (r.patient_id, r.facility_id, r.year_month)

/-- `flag_negative_costs`: `df[df["total_cost"] < 0].copy()` with
`flagged["flag_reason"] = "negative_cost"`. -/
def flag_negative_costs (df : Table) : List FlaggedRow :=
  (df.filter fun r => decide (r.total_cost < 0)).map
    fun r => ⟨r, "negative_cost"⟩

/-- Linear-interpolation quantile of an already sorted list of values, as
computed by `Series.quantile` (numpy linear method): with `n` values and
rank position `h = q*(n-1)`, interpolate between the values at positions
`⌊h⌋` and `⌊h⌋ + 1`. -/
def quantileSorted (s : List ℚ) (q : ℚ) : ℚ :=
  let h : ℚ := q * ((s.length : ℚ) - 1)
  let i : ℕ := (⌊h⌋).toNat
  let g : ℚ := h - (⌊h⌋ : ℚ)
  let vi := s.getD i 0
  let vj := s.getD (min (i + 1) (s.length - 1)) 0
  vi + g * (vj - vi)

/-- `df["total_encounters"].quantile(q)`: sort the column and interpolate;
on an empty column pandas yields NaN, embedded as `none` (every strict
comparison against NaN is false). -/
def quantileEnc (df : Table) (q : ℚ) : Option ℚ :=
  if df.isEmpty then none
  else some (quantileSorted
    (List.insertionSort (· ≤ ·) (df.map Row.total_encounters)) q)

/-- Round half to even, as Python `format(x, ".0f")` does. -/
def roundHalfEven (q : ℚ) : ℤ :=
  let f := ⌊q⌋
  let r := q - (f : ℚ)
  if r < 1 / 2 then f
  else if 1 / 2 < r then f + 1
  else if f % 2 = 0 then f else f + 1

/-- Python `f"{x:.0f}"`. -/
def fmtF0 (q : ℚ) : String :=
  toString (roundHalfEven q)

/-- The outlier reason string
`f"high_encounter_count (>{threshold:.0f}, p{percentile*100:.0f})"`. -/
def highReason (threshold percentile : ℚ) : String :=
  "high_encounter_count (>" ++ fmtF0 threshold ++ ", p"
    ++ fmtF0 (percentile * 100) ++ ")"

/-- `flag_high_encounter_counts`: threshold is the column quantile; the
rows kept are those strictly above it, tagged with the reason string. -/
def flag_high_encounter_counts (df : Table) (percentile : ℚ) :
    List FlaggedRow :=
  match quantileEnc df percentile with
  | none => []
  | some t =>
      (df.filter fun r => decide (t < r.total_encounters)).map
        fun r => ⟨r, highReason t percentile⟩

/-- `Series.unique()`: the distinct values in first-seen order. -/
def pdUnique (l : List String) : List String :=
  l.foldl (fun acc a => if a ∈ acc then acc else acc ++ [a]) []

/-- `"; ".join(sorted(x.unique()))` applied to a group's reasons. -/
def consolidate (reasons : List String) : String :=
  String.intercalate "; " (List.insertionSort (· ≤ ·) (pdUnique reasons))

/-- `drop_duplicates(subset=key_cols)`: keep the first row of each key. -/
def dedupByKey : List FlaggedRow → List FlaggedRow :=
  go []
where
  go (seen : List (String × String × String)) :
      List FlaggedRow → List FlaggedRow
    | [] => []
    | fr :: rest =>
        if rowKey fr.row ∈ seen then go seen rest
        else fr :: go (rowKey fr.row :: seen) rest

/-- The non-empty branch of `run_quality_checks`: group the unioned flag
rows by key, consolidate each group's reasons, keep one row per key
(`drop_duplicates` keeps the first occurrence, the left merge attaches
the consolidated reason), and anti-join the input on the flagged keys. -/
def reconcileFlagged (df : Table) (flagged0 : List FlaggedRow) :
    Table × List FlaggedRow :=
  let flaggedOut := (dedupByKey flagged0).map fun fr =>
    ⟨fr.row, consolidate
      (((flagged0.filter fun g => decide (rowKey g.row = rowKey fr.row)).map
        FlaggedRow.flag_reason))⟩
  let cleaned := df.filter fun r =>
    decide (∀ fr ∈ flaggedOut, rowKey fr.row ≠ rowKey r)
  (cleaned, flaggedOut)

/-- `run_quality_checks`: run both checks, concat their outputs, and
either return `(df.copy(), empty)` or reconcile the flags. -/
def run_quality_checks (df : Table) : Table × List FlaggedRow :=
  let neg := flag_negative_costs df
  let high := flag_high_encounter_counts df (99 / 100)
  let flagged0 := neg ++ high
  if flagged0.isEmpty then (df, [])
  else reconcileFlagged df flagged0

/-! ### Error-aware embedding

pandas raises `KeyError` when a column named in `df[...]`, `groupby`,
`drop_duplicates` or `merge` is absent, and `Series.quantile` raises
`ValueError` when the requested quantile lies outside the closed
interval `[0, 1]`.  The module itself performs no validation.  A
`DTable` is a frame whose columns may be missing: presence flags plus
the cell values of the columns that are present (values of absent
columns are irrelevant and never reached, since every access checks the
flag first; `distinct_diagnosis_count` is never accessed by the module,
so it carries no flag). -/

inductive PdError where
  /-- pandas `KeyError` naming the missing column. -/
  | keyError (col : String)
  /-- pandas `ValueError`: quantile not in `[0, 1]`. -/
  | invalidPercentile
deriving DecidableEq, Repr

/-- A frame with possibly missing columns. -/
structure DTable where
  hasPatient : Bool
  hasFacility : Bool
  hasYearMonth : Bool
  hasEncounters : Bool
  hasCost : Bool
  rows : List Row
deriving DecidableEq, Repr

/-- `df[col]` on a possibly missing column. -/
def requireCol (present : Bool) (col : String) : Except PdError Unit :=
  if present then .ok () else .error (.keyError col)

/-- `flag_negative_costs` with pandas's column-access error. -/
def flag_negative_costs_d (t : DTable) :
    Except PdError (List FlaggedRow) :=
  match requireCol t.hasCost "total_cost" with
  | .error e => .error e
  | .ok _ => .ok (flag_negative_costs t.rows)

/-- `flag_high_encounter_counts` with pandas's errors, in source order:
the column access in `df["total_encounters"].quantile(percentile)`
comes first, then `quantile` validates the percentile. -/
def flag_high_encounter_counts_d (t : DTable) (percentile : ℚ) :
    Except PdError (List FlaggedRow) :=
  match requireCol t.hasEncounters "total_encounters" with
  | .error e => .error e
  | .ok _ =>
      if 0 ≤ percentile ∧ percentile ≤ 1 then
        .ok (flag_high_encounter_counts t.rows percentile)
      else .error .invalidPercentile

/-- `groupby(key_cols)` (and the later `drop_duplicates`/`merge` on the
same columns): `KeyError` on the first missing primary-key column. -/
def requireKeyCols (t : DTable) : Except PdError Unit :=
  match requireCol t.hasPatient "patient_id" with
  | .error e => .error e
  | .ok _ =>
      match requireCol t.hasFacility "facility_id" with
      | .error e => .error e
      | .ok _ => requireCol t.hasYearMonth "year_month"

/-- `run_quality_checks` on a frame with possibly missing columns:
both checks run first; the primary-key columns are only touched by the
group-by in the non-empty branch. -/
def run_quality_checks_d (t : DTable) :
    Except PdError (Table × List FlaggedRow) :=
  match flag_negative_costs_d t with
  | .error e => .error e
  | .ok neg =>
      match flag_high_encounter_counts_d t (99 / 100) with
      | .error e => .error e
      | .ok high =>
          let flagged0 := neg ++ high
          if flagged0.isEmpty then .ok (t.rows, [])
          else
            match requireKeyCols t with
            | .error e => .error e
            | .ok _ => .ok (reconcileFlagged t.rows flagged0)

/-! ### Object-level embedding

To state the no-mutation / no-aliasing contract, frames are placed in a
heap of objects addressed by identifiers.  Every pandas operation the
module performs returns a new frame (boolean-mask selection, `.copy()`,
`concat`, `groupby(...).apply(...).reset_index()`, `drop`,
`drop_duplicates`, `merge`), so it is embedded as an allocation; the
only in-place statement in the module is the column assignment
`flagged["flag_reason"] = ...`, embedded as a store to the object it
targets.  A heap frame records whether the `flag_reason` column is
present and the rows (with junk reasons when the column is absent). -/

structure HFrame where
  hasFlagCol : Bool
  frows : List FlaggedRow
deriving DecidableEq, Repr

abbrev Heap := List (ℕ × HFrame)

/-- A fresh object identifier: larger than every identifier in use. -/
def hFresh (h : Heap) : ℕ :=
  (h.map Prod.fst).foldr max 0 + 1

/-- Read the frame stored at `i` (default junk if unallocated). -/
def hGet (h : Heap) (i : ℕ) : HFrame :=
  ((h.find? fun p => p.1 == i).map Prod.snd).getD ⟨false, []⟩

/-- Store `f` into the existing object `i` (an in-place write). -/
def hSet (h : Heap) (i : ℕ) (f : HFrame) : Heap :=
  h.map fun p => if p.1 = i then (i, f) else p

/-- Allocate a new object holding `f`. -/
def hAlloc (h : Heap) (f : HFrame) : Heap × ℕ :=
  let i := hFresh h
  ((i, f) :: h, i)

/-- The `Row` contents of a heap frame (its non-`flag_reason` columns). -/
def hRows (f : HFrame) : Table :=
  f.frows.map FlaggedRow.row

/-- Wrap plain rows as a frame without a `flag_reason` column. -/
def plainFrame (df : Table) : HFrame :=
  ⟨false, df.map fun r => ⟨r, ""⟩⟩

/-- `flag_negative_costs` at the object level:
`df[df["total_cost"] < 0].copy()` allocates, then
`flagged["flag_reason"] = "negative_cost"` writes in place to the new
object. -/
def flag_negative_costs_h (h : Heap) (dfId : ℕ) : Heap × ℕ :=
  let df := hGet h dfId
  let s := hAlloc h
    ⟨df.hasFlagCol, df.frows.filter fun fr => decide (fr.row.total_cost < 0)⟩
  (hSet s.1 s.2
    ⟨true, (hGet s.1 s.2).frows.map fun fr => ⟨fr.row, "negative_cost"⟩⟩,
    s.2)

/-- `flag_high_encounter_counts` at the object level (threshold is a
pure read of the input column; a comparison against an empty column's
NaN quantile is false). -/
def flag_high_encounter_counts_h (h : Heap) (dfId : ℕ) (percentile : ℚ) :
    Heap × ℕ :=
  let df := hGet h dfId
  let t := quantileEnc (hRows df) percentile
  let s := hAlloc h
    ⟨df.hasFlagCol, df.frows.filter fun fr =>
      t.any fun tv => decide (tv < fr.row.total_encounters)⟩
  (hSet s.1 s.2
    ⟨true, (hGet s.1 s.2).frows.map fun fr =>
      ⟨fr.row, highReason (t.getD 0) percentile⟩⟩,
    s.2)

/-- `run_quality_checks` at the object level: runs both checks, then
`pd.concat` allocates; in the empty branch `df.copy()` allocates the
cleaned output and the concat object is returned as the flagged output,
otherwise the group-by/merge pipeline and the indicator anti-join each
produce fresh objects whose contents are given by `reconcileFlagged`. -/
def run_quality_checks_h (h : Heap) (dfId : ℕ) : Heap × ℕ × ℕ :=
  let s1 := flag_negative_costs_h h dfId
  let s2 := flag_high_encounter_counts_h s1.1 dfId (99 / 100)
  let catRows := (hGet s2.1 s1.2).frows ++ (hGet s2.1 s2.2).frows
  let s3 := hAlloc s2.1 ⟨true, catRows⟩
  if catRows.isEmpty then
    let s4 := hAlloc s3.1 (plainFrame (hRows (hGet s3.1 dfId)))
    (s4.1, s4.2, s3.2)
  else
    let res := reconcileFlagged (hRows (hGet s3.1 dfId)) catRows
    let s4 := hAlloc s3.1 ⟨true, res.2⟩
    let s5 := hAlloc s4.1 (plainFrame res.1)
    (s5.1, s5.2, s4.2)

/-! ### Concrete tables used by witnesses and counterexamples -/

/-- A single clean row (positive cost, one encounter value). -/
def cleanRow : Row :=
  ⟨"P001", "F001", "2025-01", 3, 150, 2⟩

/-- A row that fails both checks in a suitable table: negative cost and
an extreme encounter count. -/
def doubleRow : Row :=
  ⟨"P002", "F002", "2025-01", 50, -30, 3⟩

/-- A filler row with the given patient id. -/
def fillerRow (p : String) : Row :=
  ⟨p, "F001", "2025-01", 1, 10, 1⟩

/-- A table whose first row is flagged by both checks: encounter counts
are 50 and nine 1s, so the 99th-percentile threshold is 45.59. -/
def bothDf : Table :=
  doubleRow :: (List.range 9).map fun k => fillerRow (toString (k + 3))

/-- A complete well-formed dynamic frame around a list of rows. -/
def fullDT (rows : Table) : DTable :=
  ⟨true, true, true, true, true, rows⟩

/-- A dynamic frame lacking the `patient_id` column. -/
def noPatientDT (rows : Table) : DTable :=
  ⟨false, true, true, true, true, rows⟩

/-! ### C2: the negative-cost check -/

/-- C2: `flag_negative_costs` returns exactly the rows with strictly
negative `total_cost`, each tagged with the literal reason
`"negative_cost"`; a row whose cost is exactly 0 is never included. -/
theorem flag_negative_costs_correct (df : Table) :
    (flag_negative_costs df).map FlaggedRow.row =
      df.filter (fun r => decide (r.total_cost < 0)) ∧
    (∀ fr ∈ flag_negative_costs df,
      fr.flag_reason = "negative_cost" ∧ fr.row.total_cost < 0) ∧
    (∀ r ∈ df, r.total_cost = 0 →
      ∀ fr ∈ flag_negative_costs df, fr.row ≠ r) := by
  refine ⟨?_, ?_, ?_⟩
  · rw [flag_negative_costs, List.map_map]
    have hid : (FlaggedRow.row ∘ fun r =>
        ({ row := r, flag_reason := "negative_cost" } : FlaggedRow)) = id := rfl
    rw [hid, List.map_id]
  · intro fr hfr
    simp only [flag_negative_costs, List.mem_map, List.mem_filter] at hfr
    obtain ⟨r, ⟨_, hneg⟩, rfl⟩ := hfr
    exact ⟨rfl, by simpa using hneg⟩
  · intro r _ hz fr hfr
    simp only [flag_negative_costs, List.mem_map, List.mem_filter] at hfr
    obtain ⟨r', ⟨_, hneg⟩, rfl⟩ := hfr
    intro hrr
    simp only at hrr
    rw [hrr] at hneg
    simp [hz] at hneg

/-- C2 witness: on the two-row table with costs −30 and 150, the check
keeps exactly the negative row. -/
theorem flag_negative_costs_correct_witness :
    (flag_negative_costs [doubleRow, cleanRow]).map FlaggedRow.row =
      [doubleRow, cleanRow].filter (fun r => decide (r.total_cost < 0)) :=
  (flag_negative_costs_correct [doubleRow, cleanRow]).1

/-! ### C5: empty input -/

/-- C5: on the empty table every check and the reconciler return empty
results, and the error-aware reconciler succeeds with two empty
tables. -/
theorem empty_input_policy :
    run_quality_checks [] = ([], []) ∧
    flag_negative_costs [] = [] ∧
    (∀ p : ℚ, flag_high_encounter_counts [] p = []) ∧
    run_quality_checks_d (fullDT []) = .ok ([], []) := by
  refine ⟨rfl, rfl, fun p => rfl, ?_⟩
  have hp : ((0 : ℚ) ≤ 99 / 100 ∧ (99 : ℚ) / 100 ≤ 1) := by norm_num
  simp [run_quality_checks_d, flag_negative_costs_d,
    flag_high_encounter_counts_d, requireCol, fullDT, hp,
    flag_negative_costs, flag_high_encounter_counts, quantileEnc,
    List.isEmpty]

/-! ### C7: percentile range validation -/

/-- C7 counterexample: percentile 1.0 lies outside the open interval
`(0, 1)` claimed to be enforced, yet the check raises no error — it
returns an empty flagged set on a one-row frame. -/
theorem percentile_one_accepted :
    flag_high_encounter_counts_d (fullDT [cleanRow]) 1 = .ok [] := by
  have hp : ((0 : ℚ) ≤ 1 ∧ (1 : ℚ) ≤ 1) := by norm_num
  simp [flag_high_encounter_counts_d, requireCol, fullDT, hp]
  simp [flag_high_encounter_counts, quantileEnc, quantileSorted, cleanRow]

/-- C7 amended: the percentile is validated by pandas `quantile` against
the closed interval `[0, 1]`: values strictly outside it raise
`ValueError` with no default substituted, while 0 and 1 are accepted and
the check runs normally. -/
theorem percentile_validation (t : DTable) (p : ℚ)
    (he : t.hasEncounters = true) :
    (flag_high_encounter_counts_d t p = .error .invalidPercentile ↔
      (p < 0 ∨ 1 < p)) ∧
    ((0 ≤ p ∧ p ≤ 1) →
      flag_high_encounter_counts_d t p =
        .ok (flag_high_encounter_counts t.rows p)) := by
  constructor
  · by_cases hp : 0 ≤ p ∧ p ≤ 1
    · simp only [flag_high_encounter_counts_d, requireCol, he, if_true,
        if_pos hp]
      constructor
      · intro h
        exact absurd h (by simp)
      · intro h
        rcases h with h | h
        · exact absurd hp.1 (not_le.mpr h)
        · exact absurd hp.2 (not_le.mpr h)
    · simp only [flag_high_encounter_counts_d, requireCol, he, if_true,
        if_neg hp]
      constructor
      · intro _
        rcases not_and_or.mp hp with h | h
        · exact Or.inl (not_le.mp h)
        · exact Or.inr (not_le.mp h)
      · intro _
        trivial
  · intro hp
    simp only [flag_high_encounter_counts_d, requireCol, he, if_true,
      if_pos hp]

/-- C7 witness: percentile 2 is rejected with the pandas range error. -/
theorem percentile_validation_witness :
    flag_high_encounter_counts_d (fullDT [cleanRow]) 2 =
      .error .invalidPercentile :=
  (percentile_validation (fullDT [cleanRow]) 2 rfl).1.mpr
    (Or.inr (by norm_num))

/-! ### C6: missing primary-key columns -/

/-- C6 counterexample: the input frame lacks `patient_id`, yet
`run_quality_checks` raises nothing at all — with no flaggable rows it
returns the full table as cleaned. -/
theorem missing_key_no_schema_error :
    (noPatientDT [cleanRow]).hasPatient = false ∧
    run_quality_checks_d (noPatientDT [cleanRow]) = .ok ([cleanRow], []) := by
  refine ⟨rfl, ?_⟩
  have hp : ((0 : ℚ) ≤ 99 / 100 ∧ (99 : ℚ) / 100 ≤ 1) := by norm_num
  simp [run_quality_checks_d, flag_negative_costs_d,
    flag_high_encounter_counts_d, requireCol, noPatientDT, hp]
  simp [flag_negative_costs, flag_high_encounter_counts, quantileEnc,
    quantileSorted, cleanRow]

/-- C6 amended: `run_quality_checks` performs no up-front schema
validation.  Both checks always run first; a missing primary-key column
surfaces only afterwards, as the group-by's `KeyError`, and therefore
only when at least one check flagged a row — when nothing is flagged the
call returns normally despite the missing key column. -/
theorem run_checks_missing_key_behavior (t : DTable) (e : PdError)
    (hk : requireKeyCols t = .error e)
    (hc : t.hasCost = true) (he : t.hasEncounters = true) :
    run_quality_checks_d t =
      if (flag_negative_costs t.rows
          ++ flag_high_encounter_counts t.rows (99 / 100)).isEmpty
      then .ok (t.rows, [])
      else .error e := by
  have hp : ((0 : ℚ) ≤ 99 / 100 ∧ (99 : ℚ) / 100 ≤ 1) := by norm_num
  by_cases hcond : (flag_negative_costs t.rows
      ++ flag_high_encounter_counts t.rows (99 / 100)).isEmpty = true
  · simp only [run_quality_checks_d, flag_negative_costs_d,
      flag_high_encounter_counts_d, requireCol, hc, he, if_pos hp,
      if_true, hcond, if_true]
  · simp only [run_quality_checks_d, flag_negative_costs_d,
      flag_high_encounter_counts_d, requireCol, hc, he, if_pos hp,
      if_true, hcond, if_false, hk, Bool.false_eq_true]

/-- C6 witness: with `patient_id` missing and one negative-cost row, the
error is the group-by's `KeyError`, raised after both checks ran. -/
theorem run_checks_missing_key_behavior_witness :
    run_quality_checks_d (noPatientDT [doubleRow, cleanRow]) =
      .error (.keyError "patient_id") := by
  have h := run_checks_missing_key_behavior
    (noPatientDT [doubleRow, cleanRow]) (.keyError "patient_id")
    rfl rfl rfl
  rw [h]
  have hne : flag_negative_costs [doubleRow, cleanRow] =
      [⟨doubleRow, "negative_cost"⟩] := by
    simp [flag_negative_costs, doubleRow, cleanRow]
  simp [noPatientDT, hne]

/-! ### Quantile lemmas -/

/-- `quantileSorted` written out in full. -/
theorem quantileSorted_def (s : List ℚ) (q : ℚ) :
    quantileSorted s q =
      s.getD (⌊q * ((s.length : ℚ) - 1)⌋).toNat 0 +
        (q * ((s.length : ℚ) - 1) - ((⌊q * ((s.length : ℚ) - 1)⌋ : ℤ) : ℚ)) *
          (s.getD (min ((⌊q * ((s.length : ℚ) - 1)⌋).toNat + 1)
              (s.length - 1)) 0 -
            s.getD (⌊q * ((s.length : ℚ) - 1)⌋).toNat 0) := rfl

/-- In a sorted list, positions read through `getD` are monotone. -/
theorem sorted_getD_mono {s : List ℚ} (hs : List.Sorted (· ≤ ·) s)
    {a b : ℕ} (hab : a ≤ b) (hb : b < s.length) :
    s.getD a 0 ≤ s.getD b 0 := by
  have ha : a < s.length := lt_of_le_of_lt hab hb
  rw [List.getD_eq_getElem s 0 ha, List.getD_eq_getElem s 0 hb]
  rcases Nat.lt_or_ge a b with hlt | hge
  · exact List.pairwise_iff_getElem.mp hs a b ha hb hlt
  · have hba : a = b := le_antisymm hab hge
    subst hba
    exact le_refl _

/-- The interpolation rank index stays within the list. -/
theorem quantile_idx_le {s : List ℚ} (hne : s ≠ []) {q : ℚ}
    (hq0 : 0 ≤ q) (hq1 : q ≤ 1) :
    (⌊q * ((s.length : ℚ) - 1)⌋).toNat ≤ s.length - 1 := by
  have hn1 : 1 ≤ s.length := List.length_pos.mpr hne
  have hcast : ((s.length : ℚ) - 1) = ((s.length - 1 : ℕ) : ℚ) := by
    rw [Nat.cast_sub hn1]
    norm_num
  have hnn : (0 : ℚ) ≤ (s.length : ℚ) - 1 := by
    rw [hcast]
    positivity
  have hle : q * ((s.length : ℚ) - 1) ≤ ((s.length - 1 : ℕ) : ℚ) := by
    calc q * ((s.length : ℚ) - 1) ≤ 1 * ((s.length : ℚ) - 1) :=
          mul_le_mul_of_nonneg_right hq1 hnn
      _ = ((s.length - 1 : ℕ) : ℚ) := by rw [one_mul, hcast]
  have hfl : ⌊q * ((s.length : ℚ) - 1)⌋ ≤ ((s.length - 1 : ℕ) : ℤ) := by
    have := Int.floor_mono hle
    rwa [Int.floor_natCast] at this
  calc (⌊q * ((s.length : ℚ) - 1)⌋).toNat
      ≤ ((s.length - 1 : ℕ) : ℤ).toNat := Int.toNat_le_toNat hfl
    _ = s.length - 1 := Int.toNat_natCast _

/-- Linear interpolation between two ordered values stays between them. -/
theorem interp_bounds {vi vj g : ℚ} (hvv : vi ≤ vj) (hg0 : 0 ≤ g)
    (hg1 : g ≤ 1) :
    vi ≤ vi + g * (vj - vi) ∧ vi + g * (vj - vi) ≤ vj := by
  constructor
  · nlinarith
  · nlinarith

/-- The quantile of a sorted list lies between the two interpolated
positions. -/
theorem quantileSorted_bounds {s : List ℚ} (hs : List.Sorted (· ≤ ·) s)
    (hne : s ≠ []) {q : ℚ} (hq0 : 0 ≤ q) (hq1 : q ≤ 1) :
    s.getD (⌊q * ((s.length : ℚ) - 1)⌋).toNat 0 ≤ quantileSorted s q ∧
      quantileSorted s q ≤
        s.getD (min ((⌊q * ((s.length : ℚ) - 1)⌋).toNat + 1)
          (s.length - 1)) 0 := by
  have hn1 : 1 ≤ s.length := List.length_pos.mpr hne
  have hile : (⌊q * ((s.length : ℚ) - 1)⌋).toNat ≤ s.length - 1 :=
    quantile_idx_le hne hq0 hq1
  have hij : (⌊q * ((s.length : ℚ) - 1)⌋).toNat ≤
      min ((⌊q * ((s.length : ℚ) - 1)⌋).toNat + 1) (s.length - 1) :=
    le_min (Nat.le_succ _) hile
  have hjlt : min ((⌊q * ((s.length : ℚ) - 1)⌋).toNat + 1) (s.length - 1) <
      s.length :=
    lt_of_le_of_lt (Nat.min_le_right _ _) (Nat.sub_lt hn1 one_pos)
  have hvv := sorted_getD_mono hs hij hjlt
  have hg0 : (0 : ℚ) ≤ q * ((s.length : ℚ) - 1) -
      ((⌊q * ((s.length : ℚ) - 1)⌋ : ℤ) : ℚ) := by
    rw [Int.self_sub_floor]
    exact Int.fract_nonneg _
  have hg1 : q * ((s.length : ℚ) - 1) -
      ((⌊q * ((s.length : ℚ) - 1)⌋ : ℤ) : ℚ) ≤ 1 := by
    rw [Int.self_sub_floor]
    exact le_of_lt (Int.fract_lt_one _)
  rw [quantileSorted_def]
  exact interp_bounds hvv hg0 hg1

/-- The linear-interpolation quantile of a sorted list is monotone in
the requested quantile. -/
theorem quantileSorted_mono {s : List ℚ} (hs : List.Sorted (· ≤ ·) s)
    (hne : s ≠ []) {q1 q2 : ℚ} (h0 : 0 ≤ q1) (h12 : q1 ≤ q2)
    (h2 : q2 ≤ 1) :
    quantileSorted s q1 ≤ quantileSorted s q2 := by
  have h01 : q1 ≤ 1 := le_trans h12 h2
  have h02 : 0 ≤ q2 := le_trans h0 h12
  have hn1 : 1 ≤ s.length := List.length_pos.mpr hne
  have hnn : (0 : ℚ) ≤ (s.length : ℚ) - 1 := by
    have hq : (1 : ℚ) ≤ (s.length : ℚ) := by exact_mod_cast hn1
    linarith
  have hh : q1 * ((s.length : ℚ) - 1) ≤ q2 * ((s.length : ℚ) - 1) :=
    mul_le_mul_of_nonneg_right h12 hnn
  have hi12 : (⌊q1 * ((s.length : ℚ) - 1)⌋).toNat ≤
      (⌊q2 * ((s.length : ℚ) - 1)⌋).toNat :=
    Int.toNat_le_toNat (Int.floor_mono hh)
  have hi2le := quantile_idx_le hne h02 h2
  rcases Nat.lt_or_ge (⌊q1 * ((s.length : ℚ) - 1)⌋).toNat
      (⌊q2 * ((s.length : ℚ) - 1)⌋).toNat with hlt | hge
  · have hb1 := (quantileSorted_bounds hs hne h0 h01).2
    have hb2 := (quantileSorted_bounds hs hne h02 h2).1
    have hj1 : min ((⌊q1 * ((s.length : ℚ) - 1)⌋).toNat + 1)
        (s.length - 1) ≤ (⌊q2 * ((s.length : ℚ) - 1)⌋).toNat :=
      le_trans (Nat.min_le_left _ _) hlt
    have hmid := sorted_getD_mono hs hj1
      (lt_of_le_of_lt hi2le (Nat.sub_lt hn1 one_pos))
    exact le_trans hb1 (le_trans hmid hb2)
  · have heq : (⌊q1 * ((s.length : ℚ) - 1)⌋).toNat =
        (⌊q2 * ((s.length : ℚ) - 1)⌋).toNat := le_antisymm hi12 hge
    have hfl1 : 0 ≤ ⌊q1 * ((s.length : ℚ) - 1)⌋ :=
      Int.floor_nonneg.mpr (mul_nonneg h0 hnn)
    have hfl2 : 0 ≤ ⌊q2 * ((s.length : ℚ) - 1)⌋ :=
      Int.floor_nonneg.mpr (mul_nonneg h02 hnn)
    have hfeq : ⌊q1 * ((s.length : ℚ) - 1)⌋ =
        ⌊q2 * ((s.length : ℚ) - 1)⌋ := by
      rw [← Int.toNat_of_nonneg hfl1, ← Int.toNat_of_nonneg hfl2, heq]
    have hile : (⌊q1 * ((s.length : ℚ) - 1)⌋).toNat ≤ s.length - 1 :=
      quantile_idx_le hne h0 h01
    have hij : (⌊q1 * ((s.length : ℚ) - 1)⌋).toNat ≤
        min ((⌊q1 * ((s.length : ℚ) - 1)⌋).toNat + 1) (s.length - 1) :=
      le_min (Nat.le_succ _) hile
    have hjlt : min ((⌊q1 * ((s.length : ℚ) - 1)⌋).toNat + 1)
        (s.length - 1) < s.length :=
      lt_of_le_of_lt (Nat.min_le_right _ _) (Nat.sub_lt hn1 one_pos)
    have hvv := sorted_getD_mono hs hij hjlt
    rw [quantileSorted_def, quantileSorted_def, ← hfeq]
    nlinarith [mul_le_mul_of_nonneg_right hh
      (sub_nonneg.mpr hvv)]

/-- The quantile of a constant column is that constant. -/
theorem quantileSorted_const {s : List ℚ} {c : ℚ} (hc : ∀ x ∈ s, x = c)
    (hne : s ≠ []) {q : ℚ} (hq0 : 0 ≤ q) (hq1 : q ≤ 1) :
    quantileSorted s q = c := by
  have hn1 : 1 ≤ s.length := List.length_pos.mpr hne
  have hget : ∀ k, k < s.length → s.getD k 0 = c := by
    intro k hk
    rw [List.getD_eq_getElem s 0 hk]
    exact hc _ (List.getElem_mem hk)
  have hi : (⌊q * ((s.length : ℚ) - 1)⌋).toNat < s.length :=
    lt_of_le_of_lt (quantile_idx_le hne hq0 hq1) (Nat.sub_lt hn1 one_pos)
  have hj : min ((⌊q * ((s.length : ℚ) - 1)⌋).toNat + 1) (s.length - 1) <
      s.length :=
    lt_of_le_of_lt (Nat.min_le_right _ _) (Nat.sub_lt hn1 one_pos)
  rw [quantileSorted_def, hget _ hi, hget _ hj]
  ring

/-- At quantile 1 the interpolation lands on the top sorted value. -/
theorem quantileSorted_one {s : List ℚ} (hne : s ≠ []) :
    quantileSorted s 1 = s.getD (s.length - 1) 0 := by
  have hn1 : 1 ≤ s.length := List.length_pos.mpr hne
  have hcast : ((s.length : ℚ) - 1) = ((s.length - 1 : ℕ) : ℚ) := by
    rw [Nat.cast_sub hn1]
    norm_num
  rw [quantileSorted_def, one_mul, hcast, Int.floor_natCast,
    Int.toNat_natCast]
  push_cast
  ring

/-- At quantile 0 the interpolation lands on the bottom sorted value. -/
theorem quantileSorted_zero (s : List ℚ) :
    quantileSorted s 0 = s.getD 0 0 := by
  rw [quantileSorted_def, zero_mul]
  norm_num

/-- The sorted `total_encounters` column is sorted. -/
theorem sortedEnc_sorted (df : Table) :
    List.Sorted (· ≤ ·)
      (List.insertionSort (· ≤ ·) (df.map Row.total_encounters)) :=
  List.sorted_insertionSort _ _

/-- The sorted `total_encounters` column of a non-empty table is
non-empty. -/
theorem sortedEnc_ne_nil {df : Table} (hne : df ≠ []) :
    List.insertionSort (· ≤ ·) (df.map Row.total_encounters) ≠ [] := by
  intro h
  have hlen := congrArg List.length h
  rw [List.length_insertionSort, List.length_map] at hlen
  exact hne (List.length_eq_zero.mp hlen)

/-- On a non-empty table the quantile is the interpolation over the
sorted column. -/
theorem quantileEnc_eq {df : Table} (hne : df ≠ []) (q : ℚ) :
    quantileEnc df q = some (quantileSorted
      (List.insertionSort (· ≤ ·) (df.map Row.total_encounters)) q) := by
  have hemp : df.isEmpty = false := by
    simpa [List.isEmpty_eq_false] using hne
  rw [quantileEnc, hemp]
  simp

/-- On a non-empty table the outlier check is the strict filter against
the interpolated threshold. -/
theorem flag_high_eq {df : Table} (hne : df ≠ []) (q : ℚ) :
    flag_high_encounter_counts df q =
      (df.filter fun r => decide (quantileSorted
          (List.insertionSort (· ≤ ·) (df.map Row.total_encounters)) q
          < r.total_encounters)).map
        (fun r => ⟨r, highReason (quantileSorted
          (List.insertionSort (· ≤ ·) (df.map Row.total_encounters)) q)
          q⟩) := by
  rw [flag_high_encounter_counts, quantileEnc_eq hne]

/-! ### C3: the outlier check -/

/-- C3: on a non-empty table the outlier check returns exactly the rows
whose `total_encounters` strictly exceeds the linear-interpolation
quantile of the whole column, each tagged with the formatted reason
string; when all `total_encounters` are equal nothing is flagged. -/
theorem flag_high_encounter_counts_correct (df : Table) (p : ℚ)
    (hne : df ≠ []) (hp0 : 0 ≤ p) (hp1 : p ≤ 1) :
    (∃ t, quantileEnc df p = some t ∧
      flag_high_encounter_counts df p =
        (df.filter fun r => decide (t < r.total_encounters)).map
          (fun r => ⟨r, highReason t p⟩)) ∧
    (∀ c, (∀ r ∈ df, r.total_encounters = c) →
      flag_high_encounter_counts df p = []) := by
  constructor
  · exact ⟨_, quantileEnc_eq hne p, flag_high_eq hne p⟩
  · intro c hc
    have hsne := sortedEnc_ne_nil hne
    have hmemc : ∀ x ∈ List.insertionSort (· ≤ ·)
        (df.map Row.total_encounters), x = c := by
      intro x hx
      rw [List.mem_insertionSort] at hx
      obtain ⟨r, hr, rfl⟩ := List.mem_map.mp hx
      exact hc r hr
    have ht := quantileSorted_const hmemc hsne hp0 hp1
    rw [flag_high_eq hne p, ht]
    have hnil : (df.filter fun r => decide (c < r.total_encounters)) = [] := by
      rw [List.filter_eq_nil_iff]
      intro r hr
      simp [hc r hr]
    rw [hnil]
    rfl

/-- C3 witness: the 10-row table with encounter counts 50 and nine 1s
has a well-defined 99th-percentile threshold above which exactly the
flagged rows lie. -/
theorem flag_high_encounter_counts_correct_witness :
    ∃ t, quantileEnc bothDf (99 / 100) = some t ∧
      flag_high_encounter_counts bothDf (99 / 100) =
        (bothDf.filter fun r => decide (t < r.total_encounters)).map
          (fun r => ⟨r, highReason t (99 / 100)⟩) :=
  (flag_high_encounter_counts_correct bothDf (99 / 100)
    (by simp [bothDf]) (by norm_num) (by norm_num)).1

/-! ### C8: outlier monotonicity -/

/-- C8: for a fixed table, lowering the percentile never lowers the
number of rows the outlier check flags. -/
theorem outlier_monotonicity (df : Table) (p1 p2 : ℚ)
    (h0 : 0 < p2) (h21 : p2 ≤ p1) (h1 : p1 < 1) :
    (flag_high_encounter_counts df p1).length ≤
      (flag_high_encounter_counts df p2).length := by
  rcases eq_or_ne df [] with rfl | hne
  · simp [flag_high_encounter_counts, quantileEnc]
  · have hs := sortedEnc_sorted df
    have hsne := sortedEnc_ne_nil hne
    have hq := quantileSorted_mono hs hsne (le_of_lt h0) h21 (le_of_lt h1)
    rw [flag_high_eq hne p1, flag_high_eq hne p2, List.length_map,
      List.length_map, ← List.countP_eq_length_filter,
      ← List.countP_eq_length_filter]
    apply List.countP_mono_left
    intro r _ hp
    simp only [decide_eq_true_eq] at hp ⊢
    exact lt_of_le_of_lt hq hp

/-- C8 witness: at percentiles 0.99 and 0.50 of the 10-row example the
flagged count does not decrease. -/
theorem outlier_monotonicity_witness :
    (flag_high_encounter_counts bothDf (99 / 100)).length ≤
      (flag_high_encounter_counts bothDf (1 / 2)).length :=
  outlier_monotonicity bothDf (99 / 100) (1 / 2) (by norm_num)
    (by norm_num) (by norm_num)

/-! ### C10: percentiles 0 and 1 are accepted -/

/-- C10: on a non-empty frame, percentile 1.0 raises nothing — the
threshold is the column maximum, so the strict comparison flags no
row — and percentile 0.0 likewise raises nothing, with the column
minimum as threshold. -/
theorem percentile_boundary_values (t : DTable) (hne : t.rows ≠ [])
    (he : t.hasEncounters = true) :
    (flag_high_encounter_counts_d t 1 = .ok [] ∧
      ∃ thr, quantileEnc t.rows 1 = some thr ∧
        thr ∈ t.rows.map Row.total_encounters ∧
        ∀ x ∈ t.rows.map Row.total_encounters, x ≤ thr) ∧
    (flag_high_encounter_counts_d t 0 =
        .ok (flag_high_encounter_counts t.rows 0) ∧
      ∃ thr, quantileEnc t.rows 0 = some thr ∧
        thr ∈ t.rows.map Row.total_encounters ∧
        ∀ x ∈ t.rows.map Row.total_encounters, thr ≤ x) := by
  have hs := sortedEnc_sorted t.rows
  have hsne := sortedEnc_ne_nil hne
  have hn1 : 1 ≤ (List.insertionSort (· ≤ ·)
      (t.rows.map Row.total_encounters)).length :=
    List.length_pos.mpr hsne
  have hgetmem : ∀ k (hk : k < (List.insertionSort (· ≤ ·)
      (t.rows.map Row.total_encounters)).length),
      (List.insertionSort (· ≤ ·)
        (t.rows.map Row.total_encounters)).getD k 0 ∈
        t.rows.map Row.total_encounters := by
    intro k hk
    rw [List.getD_eq_getElem _ 0 hk]
    rw [← List.mem_insertionSort (· ≤ ·)]
    exact List.getElem_mem hk
  have hidx : ∀ x ∈ t.rows.map Row.total_encounters,
      ∃ k, ∃ hk : k < (List.insertionSort (· ≤ ·)
        (t.rows.map Row.total_encounters)).length,
        (List.insertionSort (· ≤ ·)
          (t.rows.map Row.total_encounters)).getD k 0 = x := by
    intro x hx
    rw [← List.mem_insertionSort (· ≤ ·)] at hx
    obtain ⟨k, hk, hkx⟩ := List.getElem_of_mem hx
    exact ⟨k, hk, by rw [List.getD_eq_getElem _ 0 hk, hkx]⟩
  constructor
  · constructor
    · have hp : ((0 : ℚ) ≤ 1 ∧ (1 : ℚ) ≤ 1) := by norm_num
      simp only [flag_high_encounter_counts_d, requireCol, he, if_true,
        if_pos hp]
      have hmax : ∀ x ∈ t.rows.map Row.total_encounters,
          x ≤ quantileSorted (List.insertionSort (· ≤ ·)
            (t.rows.map Row.total_encounters)) 1 := by
        intro x hx
        obtain ⟨k, hk, hkx⟩ := hidx x hx
        rw [quantileSorted_one hsne, ← hkx]
        exact sorted_getD_mono hs (Nat.le_sub_one_of_lt hk)
          (Nat.sub_lt (lt_of_lt_of_le one_pos hn1) one_pos)
      rw [flag_high_eq hne 1]
      have hnil : (t.rows.filter fun r =>
          decide (quantileSorted (List.insertionSort (· ≤ ·)
            (t.rows.map Row.total_encounters)) 1 <
            r.total_encounters)) = [] := by
        rw [List.filter_eq_nil_iff]
        intro r hr
        simp only [decide_eq_true_eq, not_lt]
        exact hmax _ (List.mem_map_of_mem Row.total_encounters hr)
      rw [hnil]
      rfl
    · refine ⟨_, quantileEnc_eq hne 1, ?_, ?_⟩
      · rw [quantileSorted_one hsne]
        exact hgetmem _ (Nat.sub_lt (lt_of_lt_of_le one_pos hn1) one_pos)
      · intro x hx
        obtain ⟨k, hk, hkx⟩ := hidx x hx
        rw [quantileSorted_one hsne, ← hkx]
        exact sorted_getD_mono hs (Nat.le_sub_one_of_lt hk)
          (Nat.sub_lt (lt_of_lt_of_le one_pos hn1) one_pos)
  · constructor
    · have hp : ((0 : ℚ) ≤ 0 ∧ (0 : ℚ) ≤ 1) := by norm_num
      simp only [flag_high_encounter_counts_d, requireCol, he, if_true,
        if_pos hp]
    · refine ⟨_, quantileEnc_eq hne 0, ?_, ?_⟩
      · rw [quantileSorted_zero]
        exact hgetmem 0 (lt_of_lt_of_le one_pos hn1)
      · intro x hx
        obtain ⟨k, hk, hkx⟩ := hidx x hx
        rw [quantileSorted_zero, ← hkx]
        exact sorted_getD_mono hs (Nat.zero_le k) hk

/-- C10 witness: on a concrete two-row frame, percentile 1 runs without
error and flags nothing. -/
theorem percentile_boundary_values_witness :
    flag_high_encounter_counts_d (fullDT [cleanRow, doubleRow]) 1 =
      .ok [] :=
  (percentile_boundary_values (fullDT [cleanRow, doubleRow])
    (by simp [fullDT]) rfl).1.1

/-! ### Reconciliation lemmas -/

/-- Rows kept by `dedupByKey.go` come from the original list. -/
theorem dedupByKey_go_subset (l : List FlaggedRow)
    (seen : List (String × String × String)) :
    ∀ fr ∈ dedupByKey.go seen l, fr ∈ l := by
  induction l generalizing seen with
  | nil => simp [dedupByKey.go]
  | cons a l ih =>
      intro fr hfr
      by_cases h : rowKey a.row ∈ seen
      · simp only [dedupByKey.go, if_pos h] at hfr
        exact List.mem_cons_of_mem a (ih seen fr hfr)
      · simp only [dedupByKey.go, if_neg h, List.mem_cons] at hfr
        rcases hfr with rfl | hfr
        · exact List.mem_cons_self _ _
        · exact List.mem_cons_of_mem a (ih _ fr hfr)

/-- The keys surviving `dedupByKey.go` are the original keys not yet
seen. -/
theorem mem_keys_dedupByKey_go (l : List FlaggedRow)
    (seen : List (String × String × String))
    (k : String × String × String) :
    k ∈ (dedupByKey.go seen l).map (fun fr => rowKey fr.row) ↔
      (k ∈ l.map (fun fr => rowKey fr.row) ∧ k ∉ seen) := by
  induction l generalizing seen with
  | nil => simp [dedupByKey.go]
  | cons a l ih =>
      by_cases h : rowKey a.row ∈ seen
      · rw [dedupByKey.go, if_pos h, ih]
        simp only [List.map_cons, List.mem_cons]
        constructor
        · rintro ⟨hk, hns⟩
          exact ⟨Or.inr hk, hns⟩
        · rintro ⟨hk | hk, hns⟩
          · exact absurd (hk ▸ h) hns
          · exact ⟨hk, hns⟩
      · rw [dedupByKey.go, if_neg h]
        simp only [List.map_cons, List.mem_cons, ih, List.mem_cons,
          not_or]
        constructor
        · rintro (rfl | ⟨hk, _, hns⟩)
          · exact ⟨Or.inl rfl, h⟩
          · exact ⟨Or.inr hk, hns⟩
        · rintro ⟨hk | hk, hns⟩
          · exact Or.inl hk
          · by_cases hak : k = rowKey a.row
            · exact Or.inl hak
            · exact Or.inr ⟨hk, hak, hns⟩

/-- `dedupByKey.go` leaves no duplicate keys. -/
theorem nodup_keys_dedupByKey_go (l : List FlaggedRow)
    (seen : List (String × String × String)) :
    ((dedupByKey.go seen l).map (fun fr => rowKey fr.row)).Nodup := by
  induction l generalizing seen with
  | nil => simp [dedupByKey.go]
  | cons a l ih =>
      by_cases h : rowKey a.row ∈ seen
      · rw [dedupByKey.go, if_pos h]
        exact ih seen
      · rw [dedupByKey.go, if_neg h]
        simp only [List.map_cons, List.nodup_cons]
        refine ⟨?_, ih _⟩
        rw [mem_keys_dedupByKey_go]
        rintro ⟨_, hn⟩
        exact hn (List.mem_cons_self _ _)

/-- The flagged output of the reconciler, written out. -/
theorem reconcileFlagged_snd (df : Table) (fl0 : List FlaggedRow) :
    (reconcileFlagged df fl0).2 = (dedupByKey fl0).map fun fr =>
      ⟨fr.row, consolidate
        ((fl0.filter fun g => decide (rowKey g.row = rowKey fr.row)).map
          FlaggedRow.flag_reason)⟩ := rfl

/-- The cleaned output of the reconciler, written out. -/
theorem reconcileFlagged_fst (df : Table) (fl0 : List FlaggedRow) :
    (reconcileFlagged df fl0).1 = df.filter fun r =>
      decide (∀ fr ∈ (reconcileFlagged df fl0).2,
        rowKey fr.row ≠ rowKey r) := rfl

/-- The keys of the reconciler's flagged output are the distinct keys of
the unioned flag rows. -/
theorem keys_reconcileFlagged (df : Table) (fl0 : List FlaggedRow)
    (k : String × String × String) :
    k ∈ ((reconcileFlagged df fl0).2.map fun fr => rowKey fr.row) ↔
      k ∈ fl0.map fun fr => rowKey fr.row := by
  have hgo := mem_keys_dedupByKey_go fl0 [] k
  simp only [List.mem_map, List.not_mem_nil, not_false_iff, and_true]
    at hgo
  simp only [reconcileFlagged_snd, List.mem_map, dedupByKey]
  constructor
  · rintro ⟨fr, ⟨fr', hfr', rfl⟩, hk⟩
    exact hgo.mp ⟨fr', hfr', hk⟩
  · intro hk
    obtain ⟨fr', hfr', hkey⟩ := hgo.mpr hk
    exact ⟨_, ⟨fr', hfr', rfl⟩, hkey⟩

/-- The reconciler's flagged output has no duplicate keys. -/
theorem nodup_keys_reconcileFlagged (df : Table)
    (fl0 : List FlaggedRow) :
    ((reconcileFlagged df fl0).2.map fun fr => rowKey fr.row).Nodup := by
  rw [reconcileFlagged_snd, List.map_map]
  exact nodup_keys_dedupByKey_go fl0 []

/-- Every row unioned from the two checks is a row of the input. -/
theorem flagged0_row_mem {df : Table} {fr : FlaggedRow}
    (h : fr ∈ flag_negative_costs df
      ++ flag_high_encounter_counts df (99 / 100)) :
    fr.row ∈ df := by
  rw [List.mem_append] at h
  rcases h with h | h
  · simp only [flag_negative_costs, List.mem_map, List.mem_filter] at h
    obtain ⟨r, ⟨hr, _⟩, rfl⟩ := h
    exact hr
  · rw [flag_high_encounter_counts] at h
    split at h
    · simp at h
    · simp only [List.mem_map, List.mem_filter] at h
      obtain ⟨r, ⟨hr, _⟩, rfl⟩ := h
      exact hr

/-- When nothing is flagged, `run_quality_checks` copies the input. -/
theorem run_quality_checks_of_empty {df : Table}
    (hne : (flag_negative_costs df
      ++ flag_high_encounter_counts df (99 / 100)).isEmpty = true) :
    run_quality_checks df = (df, []) := by
  simp only [run_quality_checks, hne, if_true]

/-- When something is flagged, `run_quality_checks` reconciles. -/
theorem run_quality_checks_of_nonempty {df : Table}
    (hne : (flag_negative_costs df
      ++ flag_high_encounter_counts df (99 / 100)).isEmpty = false) :
    run_quality_checks df = reconcileFlagged df
      (flag_negative_costs df
        ++ flag_high_encounter_counts df (99 / 100)) := by
  simp only [run_quality_checks, hne, Bool.false_eq_true, if_false]

/-- A nodup-keyed list has exactly one row for each of its keys. -/
theorem filter_key_length_one {l : List FlaggedRow}
    {k : String × String × String}
    (hnd : (l.map fun fr => rowKey fr.row).Nodup)
    (hk : k ∈ l.map fun fr => rowKey fr.row) :
    (l.filter fun fr => decide (rowKey fr.row = k)).length = 1 := by
  induction l with
  | nil => simp at hk
  | cons a l ih =>
      simp only [List.map_cons, List.nodup_cons] at hnd
      rcases hnd with ⟨hna, hnd⟩
      by_cases h : rowKey a.row = k
      · rw [List.filter_cons_of_pos (by simpa using h)]
        have hnil : (l.filter fun fr =>
            decide (rowKey fr.row = k)) = [] := by
          rw [List.filter_eq_nil_iff]
          intro fr hfr
          simp only [decide_eq_true_eq]
          intro hre
          exact hna (h ▸ hre ▸ List.mem_map_of_mem
            (fun fr => rowKey fr.row) hfr)
        rw [hnil]
        rfl
      · rw [List.filter_cons_of_neg (by simpa using h)]
        simp only [List.map_cons, List.mem_cons] at hk
        rcases hk with hk' | hk'
        · exact absurd hk'.symm h
        · exact ih hnd hk'

/-- Counting the members of a nodup sublist inside a nodup list gives
the sublist's length. -/
theorem countP_mem_eq_length {L K : List (String × String × String)}
    (hL : L.Nodup) (hK : K.Nodup) (hsub : ∀ k ∈ K, k ∈ L) :
    L.countP (fun k => decide (k ∈ K)) = K.length := by
  rw [List.countP_eq_length_filter]
  have hperm : List.Perm (L.filter fun k => decide (k ∈ K)) K := by
    refine (List.perm_ext_iff_of_nodup (hL.filter _) hK).mpr ?_
    intro a
    rw [List.mem_filter]
    simp only [decide_eq_true_eq]
    constructor
    · rintro ⟨_, h⟩
      exact h
    · intro h
      exact ⟨hsub a h, h⟩
  exact hperm.length_eq

/-! ### C1: partition invariant -/

/-- C1: when the input's primary keys are unique, `run_quality_checks`
partitions it: neither output repeats a key, no key is in both outputs,
every input key is in exactly one output, and the lengths add up to the
number of distinct input keys. -/
theorem run_quality_checks_partition (df : Table)
    (hkeys : (df.map rowKey).Nodup) :
    ((run_quality_checks df).1.map rowKey).Nodup ∧
    ((run_quality_checks df).2.map fun fr => rowKey fr.row).Nodup ∧
    (∀ k, ¬(k ∈ (run_quality_checks df).1.map rowKey ∧
      k ∈ ((run_quality_checks df).2.map fun fr => rowKey fr.row))) ∧
    (∀ k, k ∈ df.map rowKey ↔
      (k ∈ (run_quality_checks df).1.map rowKey ∨
        k ∈ ((run_quality_checks df).2.map fun fr => rowKey fr.row))) ∧
    (run_quality_checks df).1.length + (run_quality_checks df).2.length =
      ((df.map rowKey).dedup).length := by
  have hded : (df.map rowKey).dedup = df.map rowKey :=
    List.dedup_eq_self.mpr hkeys
  cases hemp : (flag_negative_costs df
      ++ flag_high_encounter_counts df (99 / 100)).isEmpty with
  | true =>
      rw [run_quality_checks_of_empty hemp]
      exact ⟨hkeys, by simp, by simp, by simp,
        by simp [hded, List.length_map]⟩
  | false =>
      rw [run_quality_checks_of_nonempty hemp]
      have hKnd := nodup_keys_reconcileFlagged df
        (flag_negative_costs df ++ flag_high_encounter_counts df (99 / 100))
      have hKsub : ∀ k, k ∈ ((reconcileFlagged df
          (flag_negative_costs df
            ++ flag_high_encounter_counts df (99 / 100))).2.map
          fun fr => rowKey fr.row) → k ∈ df.map rowKey := by
        intro k hk
        rw [keys_reconcileFlagged] at hk
        obtain ⟨fr, hfr, rfl⟩ := List.mem_map.mp hk
        exact List.mem_map_of_mem rowKey (flagged0_row_mem hfr)
      have hcnd : ((reconcileFlagged df
          (flag_negative_costs df
            ++ flag_high_encounter_counts df (99 / 100))).1.map
          rowKey).Nodup := by
        rw [reconcileFlagged_fst]
        exact hkeys.sublist ((List.filter_sublist df).map rowKey)
      refine ⟨hcnd, hKnd, ?_, ?_, ?_⟩
      · rintro k ⟨hc, hf⟩
        rw [reconcileFlagged_fst] at hc
        obtain ⟨r, hrf, rfl⟩ := List.mem_map.mp hc
        obtain ⟨hr, hpred⟩ := List.mem_filter.mp hrf
        rw [decide_eq_true_eq] at hpred
        obtain ⟨fr, hfr, hkey⟩ := List.mem_map.mp hf
        exact hpred fr hfr hkey
      · intro k
        constructor
        · intro hk
          obtain ⟨r, hr, rfl⟩ := List.mem_map.mp hk
          by_cases hkf : rowKey r ∈ ((reconcileFlagged df
              (flag_negative_costs df
                ++ flag_high_encounter_counts df (99 / 100))).2.map
              fun fr => rowKey fr.row)
          · exact Or.inr hkf
          · refine Or.inl ?_
            rw [reconcileFlagged_fst]
            refine List.mem_map_of_mem rowKey (List.mem_filter.mpr
              ⟨hr, ?_⟩)
            rw [decide_eq_true_eq]
            intro fr hfr hkey
            exact hkf (List.mem_map.mpr ⟨fr, hfr, hkey⟩)
        · intro hk
          rcases hk with hk | hk
          · rw [reconcileFlagged_fst] at hk
            obtain ⟨r, hrf, rfl⟩ := List.mem_map.mp hk
            exact List.mem_map_of_mem rowKey
              (List.mem_filter.mp hrf).1
          · exact hKsub k hk
      · have hc : (reconcileFlagged df
            (flag_negative_costs df
              ++ flag_high_encounter_counts df (99 / 100))).1.length =
            (df.filter fun r => decide (∀ fr ∈ (reconcileFlagged df
              (flag_negative_costs df
                ++ flag_high_encounter_counts df (99 / 100))).2,
              rowKey fr.row ≠ rowKey r)).length := by
          rw [reconcileFlagged_fst]
        have hcsplit := List.length_eq_countP_add_countP
          (fun r => decide (∀ fr ∈ (reconcileFlagged df
            (flag_negative_costs df
              ++ flag_high_encounter_counts df (99 / 100))).2,
            rowKey fr.row ≠ rowKey r)) df
        have hcongr : df.countP (fun a => decide ¬((fun r =>
            decide (∀ fr ∈ (reconcileFlagged df
              (flag_negative_costs df
                ++ flag_high_encounter_counts df (99 / 100))).2,
              rowKey fr.row ≠ rowKey r)) a = true)) =
            df.countP (fun r => decide (rowKey r ∈
              ((reconcileFlagged df (flag_negative_costs df
                ++ flag_high_encounter_counts df (99 / 100))).2.map
                fun fr => rowKey fr.row))) := by
          apply List.countP_congr
          intro r _
          simp only [decide_eq_true_eq, List.mem_map, not_forall]
          constructor
          · rintro ⟨fr, hfr, hkey⟩
            exact ⟨fr, hfr, not_not.mp hkey⟩
          · rintro ⟨fr, hfr, hkey⟩
            exact ⟨fr, hfr, not_not.mpr hkey⟩
        have hmapcnt : df.countP (fun r => decide (rowKey r ∈
            ((reconcileFlagged df (flag_negative_costs df
              ++ flag_high_encounter_counts df (99 / 100))).2.map
              fun fr => rowKey fr.row))) =
            (df.map rowKey).countP (fun k => decide (k ∈
              ((reconcileFlagged df (flag_negative_costs df
                ++ flag_high_encounter_counts df (99 / 100))).2.map
                fun fr => rowKey fr.row))) :=
          (List.countP_map (fun k => decide (k ∈
            ((reconcileFlagged df (flag_negative_costs df
              ++ flag_high_encounter_counts df (99 / 100))).2.map
              fun fr : FlaggedRow => rowKey fr.row))) rowKey df).symm
        have hK := countP_mem_eq_length hkeys hKnd hKsub
        rw [hded, List.length_map]
        rw [hc, ← List.countP_eq_length_filter, ← List.length_map
          (reconcileFlagged df (flag_negative_costs df
            ++ flag_high_encounter_counts df (99 / 100))).2
          (fun fr => rowKey fr.row)]
        rw [← hK, ← hmapcnt, ← hcongr]
        exact hcsplit.symm

/-- C1 witness: on the 10-row example with distinct keys, the two
outputs' lengths add up to the number of distinct input keys. -/
theorem run_quality_checks_partition_witness :
    (run_quality_checks bothDf).1.length +
      (run_quality_checks bothDf).2.length =
      ((bothDf.map rowKey).dedup).length :=
  (run_quality_checks_partition bothDf (by decide)).2.2.2.2

/-! ### C4: reason consolidation -/

/-- C4: every key flagged by at least one check yields exactly one row
of the flagged output, whose `flag_reason` is the sorted, deduplicated,
`"; "`-joined list of the reason strings the checks produced for that
key. -/
theorem flagged_reason_consolidation (df : Table)
    (k : String × String × String)
    (hk : k ∈ (flag_negative_costs df
      ++ flag_high_encounter_counts df (99 / 100)).map
      fun fr => rowKey fr.row) :
    ((run_quality_checks df).2.filter fun fr =>
      decide (rowKey fr.row = k)).length = 1 ∧
    (∀ fr ∈ (run_quality_checks df).2, rowKey fr.row = k →
      fr.flag_reason = consolidate
        (((flag_negative_costs df
          ++ flag_high_encounter_counts df (99 / 100)).filter
            fun g => decide (rowKey g.row = k)).map
          FlaggedRow.flag_reason)) := by
  have hne : (flag_negative_costs df
      ++ flag_high_encounter_counts df (99 / 100)).isEmpty = false := by
    obtain ⟨fr, hfr, _⟩ := List.mem_map.mp hk
    cases hfl : (flag_negative_costs df
        ++ flag_high_encounter_counts df (99 / 100)) with
    | nil => rw [hfl] at hfr; simp at hfr
    | cons a l => simp [hfl]
  rw [run_quality_checks_of_nonempty hne]
  have hkin : k ∈ ((reconcileFlagged df (flag_negative_costs df
      ++ flag_high_encounter_counts df (99 / 100))).2.map
      fun fr => rowKey fr.row) :=
    (keys_reconcileFlagged df _ k).mpr hk
  constructor
  · exact filter_key_length_one (nodup_keys_reconcileFlagged df _) hkin
  · intro fr hfr hkey
    rw [reconcileFlagged_snd] at hfr
    obtain ⟨fr', _, rfl⟩ := List.mem_map.mp hfr
    simp only at hkey ⊢
    rw [hkey]

/-- C4 witness: the first row of the 10-row example is flagged, and the
flagged output has exactly one row carrying its key. -/
theorem flagged_reason_consolidation_witness :
    ((run_quality_checks bothDf).2.filter fun fr =>
      decide (rowKey fr.row = rowKey doubleRow)).length = 1 :=
  (flagged_reason_consolidation bothDf (rowKey doubleRow)
    (by decide)).1

/-! ### Heap lemmas -/

/-- Every member of a list of naturals is at most their folded max. -/
theorem mem_le_foldr_max (l : List ℕ) (i : ℕ) (h : i ∈ l) :
    i ≤ l.foldr max 0 := by
  induction l with
  | nil => simp at h
  | cons a t ih =>
      rcases List.mem_cons.mp h with rfl | h
      · exact le_max_left _ _
      · exact le_trans (ih h) (le_max_right _ _)

/-- A fresh identifier differs from every identifier in use. -/
theorem hFresh_ne {h : Heap} {i : ℕ} (hi : i ∈ h.map Prod.fst) :
    hFresh h ≠ i := by
  have hle := mem_le_foldr_max _ _ hi
  unfold hFresh
  omega

/-- Reading a heap that starts with an entry. -/
theorem hGet_cons (x : ℕ × HFrame) (h : Heap) (j : ℕ) :
    hGet (x :: h) j = if x.1 = j then x.2 else hGet h j := by
  by_cases hx : x.1 = j
  · simp [hGet, List.find?_cons, hx]
  · simp [hGet, List.find?_cons, hx]

/-- An in-place store does not change the set of identifiers in use. -/
theorem hSet_map_fst (h : Heap) (i : ℕ) (f : HFrame) :
    (hSet h i f).map Prod.fst = h.map Prod.fst := by
  unfold hSet
  rw [List.map_map]
  apply List.map_congr_left
  intro a _
  by_cases ha : a.1 = i
  · simp [Function.comp, ha]
  · simp [Function.comp, ha]

/-- An in-place store to one object leaves every other object alone. -/
theorem hGet_hSet_ne {h : Heap} {i j : ℕ} {f : HFrame} (hij : i ≠ j) :
    hGet (hSet h i f) j = hGet h j := by
  induction h with
  | nil => rfl
  | cons a t ih =>
      have hcons : hSet (a :: t) i f =
          (if a.1 = i then (i, f) else a) :: hSet t i f := rfl
      rw [hcons, hGet_cons, hGet_cons]
      by_cases hai : a.1 = i
      · have h1 : ((if a.1 = i then (i, f) else a).1 = j) = (i = j) := by
          rw [if_pos hai]
        rw [if_pos hai]
        simp only [if_neg hij]
        rw [if_neg (hai ▸ hij : ¬a.1 = j)]
        exact ih
      · rw [if_neg hai]
        by_cases haj : a.1 = j
        · rw [if_pos haj, if_pos haj]
        · rw [if_neg haj, if_neg haj]
          exact ih

/-- An in-place store to an allocated object takes effect. -/
theorem hGet_hSet_self {h : Heap} {i : ℕ} {f : HFrame}
    (hmem : i ∈ h.map Prod.fst) :
    hGet (hSet h i f) i = f := by
  induction h with
  | nil => simp at hmem
  | cons a t ih =>
      have hcons : hSet (a :: t) i f =
          (if a.1 = i then (i, f) else a) :: hSet t i f := rfl
      rw [hcons, hGet_cons]
      by_cases hai : a.1 = i
      · rw [if_pos hai]
        simp
      · rw [if_neg hai, if_neg (by simp [hai])]
        apply ih
        rcases List.mem_cons.mp hmem with h' | h'
        · exact absurd h'.symm hai
        · exact h'

/-- The negative-cost check allocates one object and touches nothing
else. -/
theorem flag_negative_costs_h_dom (h : Heap) (dfId : ℕ) :
    ((flag_negative_costs_h h dfId).1).map Prod.fst =
      hFresh h :: h.map Prod.fst := by
  simp only [flag_negative_costs_h, hAlloc, hSet_map_fst, List.map_cons]

/-- The object the negative-cost check returns is the fresh one. -/
theorem flag_negative_costs_h_snd (h : Heap) (dfId : ℕ) :
    (flag_negative_costs_h h dfId).2 = hFresh h := rfl

/-- The negative-cost check leaves every pre-existing object
unchanged. -/
theorem flag_negative_costs_h_get {h : Heap} {dfId j : ℕ}
    (hj : j ∈ h.map Prod.fst) :
    hGet (flag_negative_costs_h h dfId).1 j = hGet h j := by
  have hne := hFresh_ne hj
  simp only [flag_negative_costs_h, hAlloc]
  rw [hGet_hSet_ne hne, hGet_cons, if_neg hne]

/-- The outlier check allocates one object and touches nothing else. -/
theorem flag_high_encounter_counts_h_dom (h : Heap) (dfId : ℕ)
    (p : ℚ) :
    ((flag_high_encounter_counts_h h dfId p).1).map Prod.fst =
      hFresh h :: h.map Prod.fst := by
  simp only [flag_high_encounter_counts_h, hAlloc, hSet_map_fst,
    List.map_cons]

/-- The object the outlier check returns is the fresh one. -/
theorem flag_high_encounter_counts_h_snd (h : Heap) (dfId : ℕ)
    (p : ℚ) :
    (flag_high_encounter_counts_h h dfId p).2 = hFresh h := rfl

/-- The outlier check leaves every pre-existing object unchanged. -/
theorem flag_high_encounter_counts_h_get {h : Heap} {dfId j : ℕ}
    {p : ℚ} (hj : j ∈ h.map Prod.fst) :
    hGet (flag_high_encounter_counts_h h dfId p).1 j = hGet h j := by
  have hne := hFresh_ne hj
  simp only [flag_high_encounter_counts_h, hAlloc]
  rw [hGet_hSet_ne hne, hGet_cons, if_neg hne]

/-! ### C9: no mutation, fresh outputs -/

/-- C9: neither check nor the reconciler mutates the input frame object
(its rows, row count and column set — in particular the absence of a
`flag_reason` column — are untouched), and each returns freshly
allocated objects distinct from the input object. -/
theorem no_mutation_fresh_outputs (h : Heap) (dfId : ℕ) (p : ℚ)
    (hmem : dfId ∈ h.map Prod.fst) :
    (hGet (flag_negative_costs_h h dfId).1 dfId = hGet h dfId ∧
      (flag_negative_costs_h h dfId).2 ≠ dfId) ∧
    (hGet (flag_high_encounter_counts_h h dfId p).1 dfId = hGet h dfId ∧
      (flag_high_encounter_counts_h h dfId p).2 ≠ dfId) ∧
    (hGet (run_quality_checks_h h dfId).1 dfId = hGet h dfId ∧
      (run_quality_checks_h h dfId).2.1 ≠ dfId ∧
      (run_quality_checks_h h dfId).2.2 ≠ dfId) := by
  have hmem1 : dfId ∈ ((flag_negative_costs_h h dfId).1).map Prod.fst := by
    rw [flag_negative_costs_h_dom]
    exact List.mem_cons_of_mem _ hmem
  have hmem2 : dfId ∈ ((flag_high_encounter_counts_h
      (flag_negative_costs_h h dfId).1 dfId (99 / 100)).1).map
      Prod.fst := by
    rw [flag_high_encounter_counts_h_dom]
    exact List.mem_cons_of_mem _ hmem1
  have hget2 : hGet (flag_high_encounter_counts_h
      (flag_negative_costs_h h dfId).1 dfId (99 / 100)).1 dfId =
      hGet h dfId := by
    rw [flag_high_encounter_counts_h_get hmem1,
      flag_negative_costs_h_get hmem]
  refine ⟨⟨flag_negative_costs_h_get hmem,
    by rw [flag_negative_costs_h_snd]; exact hFresh_ne hmem⟩,
    ⟨flag_high_encounter_counts_h_get hmem,
    by rw [flag_high_encounter_counts_h_snd]; exact hFresh_ne hmem⟩,
    ?_⟩
  simp only [run_quality_checks_h, hAlloc]
  set H2 := (flag_high_encounter_counts_h
    (flag_negative_costs_h h dfId).1 dfId (99 / 100)).1 with hH2
  have hmem3 : dfId ∈ ((hFresh H2, (⟨true,
      (hGet H2 (flag_negative_costs_h h dfId).2).frows ++
        (hGet H2 (flag_high_encounter_counts_h
          (flag_negative_costs_h h dfId).1 dfId (99 / 100)).2).frows⟩
      : HFrame)) :: H2).map Prod.fst :=
    List.mem_cons_of_mem _ hmem2
  split
  · refine ⟨?_, ?_, ?_⟩
    · rw [hGet_cons, if_neg (hFresh_ne hmem3), hGet_cons,
        if_neg (hFresh_ne hmem2)]
      exact hget2
    · exact hFresh_ne hmem3
    · exact hFresh_ne hmem2
  · refine ⟨?_, ?_, ?_⟩
    · rw [hGet_cons, if_neg (hFresh_ne (List.mem_cons_of_mem _ hmem3)),
        hGet_cons, if_neg (hFresh_ne hmem3), hGet_cons,
        if_neg (hFresh_ne hmem2)]
      exact hget2
    · exact hFresh_ne (List.mem_cons_of_mem _ hmem3)
    · exact hFresh_ne hmem3

/-- C9 witness: on a one-object heap holding a one-row frame, the
negative-cost check leaves the input object untouched. -/
theorem no_mutation_fresh_outputs_witness :
    hGet (flag_negative_costs_h [(0, plainFrame [doubleRow])] 0).1 0 =
      hGet [(0, plainFrame [doubleRow])] 0 :=
  (no_mutation_fresh_outputs [(0, plainFrame [doubleRow])] 0 (1 / 2)
    (by simp)).1.1

end DataQuality
